import Mathlib

set_option maxHeartbeats 1000000

namespace TravelImageGenerator

/- Character-level models of the JavaScript string operations used by the
   source (String.prototype.split, trim, toLowerCase).  Lean 4.14 strings are
   lists of characters, so each operation is defined on List Char and lifted. -/

/-- Whitespace characters recognised by JavaScript (the regex class \s and
String.prototype.trim): ASCII whitespace plus the Unicode space separators. -/
def wsChars : List Char :=
  [' ', '\t', '\n', '\r', '\x0b', '\x0c',
   '\u00A0', '\u1680', '\u2000', '\u2001', '\u2002', '\u2003', '\u2004',
   '\u2005', '\u2006', '\u2007', '\u2008', '\u2009', '\u200A',
   '\u2028', '\u2029', '\u202F', '\u205F', '\u3000', '\uFEFF']

def isJsWhitespace (c : Char) : Bool := wsChars.contains c

/-- Model of String.prototype.trim: drop whitespace from both ends. -/
def trimChars (l : List Char) : List Char :=
  ((l.dropWhile isJsWhitespace).reverse.dropWhile isJsWhitespace).reverse

def jsTrim (s : String) : String := String.mk (trimChars s.data)

/-- Model of String.prototype.toLowerCase restricted to ASCII letters, the
only letters the claims exercise. -/
def jsToLowerChar (c : Char) : Char :=
  if 'A' ≤ c && c ≤ 'Z' then Char.ofNat (c.toNat + 32) else c

def jsToLower (s : String) : String := String.mk (s.data.map jsToLowerChar)

/-- Model of String.prototype.split with a one-character separator.  The
result is always non-empty, exactly as in JavaScript. -/
def splitOnChar (sep : Char) : List Char → List (List Char)
  | [] => [[]]
  | c :: rest =>
    let r := splitOnChar sep rest
    if c = sep then [] :: r else (c :: r.headD []) :: r.tail

/-- Model of Array.prototype.join with a one-character separator. -/
def joinWithChar (sep : Char) : List (List Char) → List Char
  | [] => []
  | [x] => x
  | x :: y :: xs => x ++ sep :: joinWithChar sep (y :: xs)

theorem splitOnChar_ne_nil (sep : Char) (l : List Char) : splitOnChar sep l ≠ [] := by
  cases l with
  | nil => simp [splitOnChar]
  | cons c rest =>
    simp only [splitOnChar]
    split <;> simp

theorem splitOnChar_no_sep (sep : Char) (l : List Char) :
    ∀ p ∈ splitOnChar sep l, sep ∉ p := by
  induction l with
  | nil => intro p hp; simp [splitOnChar] at hp; simp [hp]
  | cons c rest ih =>
    intro p hp
    simp only [splitOnChar] at hp
    by_cases hc : c = sep
    · simp [hc] at hp
      rcases hp with hp | hp
      · simp [hp]
      · exact ih p hp
    · simp [hc] at hp
      rcases hp with hp | hp
      · subst hp
        intro hmem
        rcases List.mem_cons.mp hmem with h | h
        · exact hc h.symm
        · have hhead : (splitOnChar sep rest).head?.getD [] ∈ splitOnChar sep rest := by
            cases hr : splitOnChar sep rest with
            | nil => exact absurd hr (splitOnChar_ne_nil sep rest)
            | cons a as => simp
          exact ih _ hhead h
      · have htail : p ∈ splitOnChar sep rest := by
          cases hr : splitOnChar sep rest with
          | nil => exact absurd hr (splitOnChar_ne_nil sep rest)
          | cons a as => rw [hr] at hp; exact List.mem_cons_of_mem a hp
        exact ih p htail

theorem splitOnChar_of_no_sep (sep : Char) (l : List Char) (h : sep ∉ l) :
    splitOnChar sep l = [l] := by
  induction l with
  | nil => simp [splitOnChar]
  | cons c rest ih =>
    have hc : c ≠ sep := fun hc => h (hc ▸ List.mem_cons_self c rest)
    have hrest : sep ∉ rest := fun hm => h (List.mem_cons_of_mem c hm)
    simp [splitOnChar, hc, ih hrest]

theorem splitOnChar_append_sep (sep : Char) (x rest : List Char) (hx : sep ∉ x) :
    splitOnChar sep (x ++ sep :: rest) = x :: splitOnChar sep rest := by
  induction x with
  | nil => simp [splitOnChar]
  | cons c x' ih =>
    have hc : c ≠ sep := fun hc => hx (hc ▸ List.mem_cons_self c x')
    have hx' : sep ∉ x' := fun hm => hx (List.mem_cons_of_mem c hm)
    simp [splitOnChar, hc, ih hx']

theorem splitOnChar_joinWithChar (sep : Char) (xss : List (List Char))
    (hne : xss ≠ []) (hcf : ∀ x ∈ xss, sep ∉ x) :
    splitOnChar sep (joinWithChar sep xss) = xss := by
  induction xss with
  | nil => exact absurd rfl hne
  | cons x xs ih =>
    cases xs with
    | nil =>
      simp only [joinWithChar]
      exact splitOnChar_of_no_sep sep x (hcf x (List.mem_cons_self x []))
    | cons y ys =>
      have hx : sep ∉ x := hcf x (List.mem_cons_self x _)
      have hrest : ∀ z ∈ y :: ys, sep ∉ z := fun z hz => hcf z (List.mem_cons_of_mem x hz)
      simp only [joinWithChar]
      rw [splitOnChar_append_sep sep x _ hx, ih (by simp) hrest]

/- The simple CSV layer of the server action (src/unnamed/part_001):
   parseCsvLine, stringifyCsvLine and the line splitting split(/\r?\n/). -/

/-- parseCsvLine from the source: split the line at every comma. -/
def parseCsvLine (line : String) : List String :=
  (splitOnChar ',' line.data).map String.mk

/-- stringifyCsvLine from the source: fields.join(comma). -/
def stringifyCsvLine (fields : List String) : String :=
  String.mk (joinWithChar ',' (fields.map String.data))

/-- Drop one trailing carriage return, so that splitting on newline models
the source's split(/\r?\n/). -/
def stripCR (l : List Char) : List Char :=
  if l.getLast? = some '\r' then l.dropLast else l

def splitLines (s : String) : List String :=
  (splitOnChar '\n' s.data).map (fun l => String.mk (stripCR l))

def joinLines (ls : List String) : String :=
  String.mk (joinWithChar '\n' (ls.map String.data))

theorem data_mk (l : List Char) : (String.mk l).data = l := rfl

theorem mk_data (s : String) : String.mk s.data = s := by cases s; rfl

/-- Round trip: stringifying comma-free fields and parsing them back is the
identity.  This is how rows written by the update are read again. -/
theorem parse_stringify (fs : List String) (hne : fs ≠ [])
    (hcf : ∀ f ∈ fs, ',' ∉ f.data) :
    parseCsvLine (stringifyCsvLine fs) = fs := by
  unfold parseCsvLine stringifyCsvLine
  rw [data_mk]
  rw [splitOnChar_joinWithChar ',' (fs.map String.data) (by simpa using hne)
      (by intro x hx
          rcases List.mem_map.mp hx with ⟨f, hf, rfl⟩
          exact hcf f hf)]
  rw [List.map_map]
  have : (fun l => String.mk l) ∘ String.data = id := by
    funext s; exact mk_data s
  rw [this, List.map_id]

theorem parseCsvLine_no_comma (line : String) :
    ∀ f ∈ parseCsvLine line, ',' ∉ f.data := by
  intro f hf
  rcases List.mem_map.mp hf with ⟨p, hp, rfl⟩
  rw [data_mk]
  exact splitOnChar_no_sep ',' line.data p hp

theorem parseCsvLine_ne_nil (line : String) : parseCsvLine line ≠ [] := by
  unfold parseCsvLine
  simp [splitOnChar_ne_nil]

/- The CSV update routine updateCsvWithFilename of src/unnamed/part_001.
   The JavaScript mutates an array of lines in place; here every mutation is
   an explicit functional update, in the same order as the source. -/

/-- Pad a field list with empty strings up to the header length, modelling
the source's while-push loop. -/
def padTo (n : Nat) (fields : List String) : List String :=
  fields ++ List.replicate (n - fields.length) ""

/-- Header-name normalisation from the source: h.trim().toLowerCase(). -/
def normalizeName (s : String) : String := jsToLower (jsTrim s)

/-- First index in a list satisfying a predicate, as used for the source's
indexOf on the normalised header and for stating where the scan loop stops. -/
def firstIdx (p : α → Bool) : List α → Option Nat
  | [] => none
  | a :: rest => if p a then some 0 else (firstIdx p rest).map (· + 1)

/-- Header handling of updateCsvWithFilename: find the filename column in the
normalised header, appending one when it is missing.  Returns the (possibly
extended) header together with the filename column index. -/
def resolveHeader (headerLine : String) : List String × Nat :=
  let header0 := parseCsvLine headerLine
  match firstIdx (fun h => normalizeName h == "filename") header0 with
  | some i => (header0, i)
  | none => (header0 ++ ["filename"], header0.length)

/-- The row-scanning for-loop of updateCsvWithFilename.  Walks the data lines
and returns (new lines, updated flag, updatedIndex): blank lines are skipped;
on the first (city, country) match whose filename field is blank the field is
set and the loop breaks; otherwise the first match index is recorded. -/
def scanRows (city country filename : String) (hlen fidx : Nat) :
    List String → List String × Bool × Option Nat
  | [] => ([], false, none)
  | raw :: rest =>
    if jsTrim raw = "" then
      let r := scanRows city country filename hlen fidx rest
      (raw :: r.1, r.2.1, r.2.2.map (· + 1))
    else
      let fields := padTo hlen (parseCsvLine raw)
      if jsTrim (fields.getD 0 "") = city ∧ jsTrim (fields.getD 1 "") = country then
        if jsTrim (fields.getD fidx "") = "" then
          (stringifyCsvLine (fields.set fidx filename) :: rest, true, some 0)
        else
          let r := scanRows city country filename hlen fidx rest
          (raw :: r.1, r.2.1, if r.2.1 then r.2.2.map (· + 1) else some 0)
      else
        let r := scanRows city country filename hlen fidx rest
        (raw :: r.1, r.2.1, r.2.2.map (· + 1))

/-- updateCsvWithFilename on the list of lines: header handling, the scan
loop, then the not-updated fixups (overwrite first match, else append a new
row), and finally the header is written back as line 0.  The empty-lines case
is unreachable from the string wrapper because splitting never returns an
empty list (the source throws there). -/
def updateCsvLines (city country filename : String) : List String → List String
  | [] => []
  | headerLine :: rows =>
    let hf := resolveHeader headerLine
    let header := hf.1
    let fidx := hf.2
    let r := scanRows city country filename header.length fidx rows
    let rows2 :=
      if r.2.1 then r.1
      else
        match r.2.2 with
        | some i =>
          let fields := padTo header.length (parseCsvLine (r.1.getD i ""))
          r.1.set i (stringifyCsvLine (fields.set fidx filename))
        | none =>
          r.1 ++ [stringifyCsvLine ((padTo header.length [city, country, ""]).set fidx filename)]
    stringifyCsvLine header :: rows2

/-- updateCsvWithFilename on the whole text resource: split on \r?\n, update
the lines, join with \n — exactly the read/modify/write of the source. -/
def updateCsvWithFilename (city country filename csv : String) : String :=
  joinLines (updateCsvLines city country filename (splitLines csv))

/- Declarative predicates describing the scan loop, used to state the
three-way priority policy of the specification. -/

/-- A data line matches the (city, country) key: it is not blank and its
first two fields, trimmed, equal the key case-sensitively. -/
def lineMatches (city country : String) (raw : String) : Prop :=
  ¬ jsTrim raw = "" ∧
    jsTrim ((parseCsvLine raw).getD 0 "") = city ∧
    jsTrim ((parseCsvLine raw).getD 1 "") = country

instance (city country raw : String) : Decidable (lineMatches city country raw) := by
  unfold lineMatches; infer_instance

/-- The filename field of a data line is blank (missing or whitespace). -/
def fieldBlankAt (fidx : Nat) (raw : String) : Prop :=
  jsTrim ((parseCsvLine raw).getD fidx "") = ""

instance (fidx : Nat) (raw : String) : Decidable (fieldBlankAt fidx raw) := by
  unfold fieldBlankAt; infer_instance

/-- A data line matches the key and its filename field is still blank. -/
def isEmptyMatch (city country : String) (fidx : Nat) (raw : String) : Prop :=
  lineMatches city country raw ∧ fieldBlankAt fidx raw

instance (city country : String) (fidx : Nat) (raw : String) :
    Decidable (isEmptyMatch city country fidx raw) := by
  unfold isEmptyMatch; infer_instance

/-- The line a matching row is rewritten to: its fields padded to the header
width with the filename column set. -/
def applyFilename (filename : String) (hlen fidx : Nat) (raw : String) : String :=
  stringifyCsvLine ((padTo hlen (parseCsvLine raw)).set fidx filename)

/-- The line appended when no row matches: city, country, an empty type
field, padded to the header width, with the filename column set. -/
def appendedRow (city country filename : String) (hlen fidx : Nat) : String :=
  stringifyCsvLine ((padTo hlen [city, country, ""]).set fidx filename)

/- List utilities for reasoning about the padded field lists and about
updates in the middle of the line list. -/

theorem padTo_getElem (n : Nat) (fs : List String) (i : Nat) :
    (padTo n fs)[i]?.getD "" = fs[i]?.getD "" := by
  unfold padTo
  rw [List.getElem?_append]
  split
  · rfl
  · rename_i hlt
    have h1 : fs[i]? = none := List.getElem?_eq_none (by omega)
    rw [h1, List.getElem?_replicate]
    split <;> rfl

theorem padTo_getD (n : Nat) (fs : List String) (i : Nat) :
    (padTo n fs).getD i "" = fs.getD i "" := by
  simpa [List.getD_eq_getElem?_getD] using padTo_getElem n fs i

theorem padTo_length (n : Nat) (fs : List String) :
    (padTo n fs).length = max fs.length n := by
  unfold padTo
  simp [List.length_append, List.length_replicate]
  omega

theorem getD_mid (pre : List String) (x : String) (post : List String) :
    (pre ++ x :: post).getD pre.length "" = x := by
  induction pre with
  | nil => rfl
  | cons a pre ih => simpa using ih

theorem set_mid (pre : List String) (x y : String) (post : List String) :
    (pre ++ x :: post).set pre.length y = pre ++ y :: post := by
  induction pre with
  | nil => rfl
  | cons a pre ih => simp [List.set, ih]

theorem set_getD_self (l : List String) (i : Nat) (d : String) :
    l.set i (l.getD i d) = l := by
  induction l generalizing i with
  | nil => rfl
  | cons a l ih =>
    cases i with
    | zero => rfl
    | succ j =>
      have h : (a :: l).getD (j + 1) d = l.getD j d := rfl
      rw [h]
      show a :: l.set j (l.getD j d) = a :: l
      rw [ih]

theorem firstIdx_eq_none_iff (p : α → Bool) (l : List α) :
    firstIdx p l = none ↔ ∀ a ∈ l, p a = false := by
  induction l with
  | nil => simp [firstIdx]
  | cons a rest ih =>
    simp only [firstIdx]
    by_cases ha : p a = true
    · simp [ha]
    · have ha' : p a = false := by simpa using ha
      simp only [ha', Bool.false_eq_true, if_false, List.mem_cons]
      rw [Option.map_eq_none', ih]
      constructor
      · rintro h b (rfl | hb)
        · exact ha'
        · exact h b hb
      · intro h b hb
        exact h b (Or.inr hb)

theorem firstIdx_append_none (p : α → Bool) (l l' : List α)
    (h : firstIdx p l = none) :
    firstIdx p (l ++ l') = (firstIdx p l').map (· + l.length) := by
  induction l with
  | nil =>
    simp only [List.nil_append, List.length_nil]
    cases firstIdx p l' <;> simp
  | cons a rest ih =>
    have ha : p a = false := (firstIdx_eq_none_iff p (a :: rest)).mp h a (List.mem_cons_self a rest)
    have hrest : firstIdx p rest = none :=
      (firstIdx_eq_none_iff p rest).mpr
        (fun b hb => (firstIdx_eq_none_iff p (a :: rest)).mp h b (List.mem_cons_of_mem a hb))
    have key := ih hrest
    have unf : firstIdx p (a :: (rest ++ l')) =
        if p a then some 0 else (firstIdx p (rest ++ l')).map (· + 1) := rfl
    rw [show (a :: rest) ++ l' = a :: (rest ++ l') from rfl, unf, ha]
    simp only [Bool.false_eq_true, if_false]
    rw [key]
    cases hfl : firstIdx p l' with
    | none => rfl
    | some i => rfl

/- Characterisation of the scan loop: where it breaks, what it records. -/

theorem scan_no_match (city country filename : String) (hlen fidx : Nat)
    (rows : List String) (h : ∀ r ∈ rows, ¬ lineMatches city country r) :
    scanRows city country filename hlen fidx rows = (rows, false, none) := by
  induction rows with
  | nil => rfl
  | cons raw rest ih =>
    have hrest := ih (fun r hr => h r (List.mem_cons_of_mem raw hr))
    have hraw := h raw (List.mem_cons_self raw rest)
    simp only [scanRows]
    by_cases hb : jsTrim raw = ""
    · rw [if_pos hb, hrest]
      rfl
    · rw [if_neg hb]
      have hm : ¬ (jsTrim ((padTo hlen (parseCsvLine raw)).getD 0 "") = city ∧
          jsTrim ((padTo hlen (parseCsvLine raw)).getD 1 "") = country) := by
        rw [padTo_getD, padTo_getD]
        intro hc
        exact hraw ⟨hb, hc.1, hc.2⟩
      rw [if_neg hm, hrest]
      rfl

theorem scan_no_empty (city country filename : String) (hlen fidx : Nat)
    (rows : List String) (h : ∀ r ∈ rows, ¬ isEmptyMatch city country fidx r) :
    (scanRows city country filename hlen fidx rows).1 = rows ∧
    (scanRows city country filename hlen fidx rows).2.1 = false := by
  induction rows with
  | nil => exact ⟨rfl, rfl⟩
  | cons raw rest ih =>
    have hrest := ih (fun r hr => h r (List.mem_cons_of_mem raw hr))
    have hraw := h raw (List.mem_cons_self raw rest)
    simp only [scanRows]
    by_cases hb : jsTrim raw = ""
    · rw [if_pos hb]
      exact ⟨by rw [hrest.1], hrest.2⟩
    · rw [if_neg hb]
      by_cases hm : jsTrim ((padTo hlen (parseCsvLine raw)).getD 0 "") = city ∧
          jsTrim ((padTo hlen (parseCsvLine raw)).getD 1 "") = country
      · rw [if_pos hm]
        have hblank : ¬ jsTrim ((padTo hlen (parseCsvLine raw)).getD fidx "") = "" := by
          rw [padTo_getD]
          intro hblank
          rw [padTo_getD, padTo_getD] at hm
          exact hraw ⟨⟨hb, hm.1, hm.2⟩, hblank⟩
        rw [if_neg hblank]
        exact ⟨by rw [hrest.1], hrest.2⟩
      · rw [if_neg hm]
        exact ⟨by rw [hrest.1], hrest.2⟩

theorem scan_break (city country filename : String) (hlen fidx : Nat)
    (pre : List String) (x : String) (post : List String)
    (hpre : ∀ r ∈ pre, ¬ isEmptyMatch city country fidx r)
    (hx : isEmptyMatch city country fidx x) :
    scanRows city country filename hlen fidx (pre ++ x :: post) =
      (pre ++ applyFilename filename hlen fidx x :: post, true, some pre.length) := by
  obtain ⟨⟨hb, h0, h1⟩, hblank⟩ := hx
  induction pre with
  | nil =>
    simp only [List.nil_append, scanRows]
    rw [if_neg hb, if_pos (by rw [padTo_getD, padTo_getD]; exact ⟨h0, h1⟩),
      if_pos (by rw [padTo_getD]; exact hblank)]
    rfl
  | cons a pre ih =>
    have ha := hpre a (List.mem_cons_self a pre)
    have hrest := ih (fun r hr => hpre r (List.mem_cons_of_mem a hr))
    simp only [List.cons_append, scanRows]
    rw [show pre.append (x :: post) = pre ++ x :: post from rfl]
    by_cases hab : jsTrim a = ""
    · rw [if_pos hab, hrest]
      rfl
    · rw [if_neg hab]
      by_cases ham : jsTrim ((padTo hlen (parseCsvLine a)).getD 0 "") = city ∧
          jsTrim ((padTo hlen (parseCsvLine a)).getD 1 "") = country
      · rw [if_pos ham]
        have hablank : ¬ jsTrim ((padTo hlen (parseCsvLine a)).getD fidx "") = "" := by
          rw [padTo_getD]
          intro hblank2
          rw [padTo_getD, padTo_getD] at ham
          exact ha ⟨⟨hab, ham.1, ham.2⟩, hblank2⟩
        rw [if_neg hablank, hrest]
        rfl
      · rw [if_neg ham, hrest]
        rfl

theorem scan_first_filled (city country filename : String) (hlen fidx : Nat)
    (pre : List String) (x : String) (post : List String)
    (hpre : ∀ r ∈ pre, ¬ lineMatches city country r)
    (hx : lineMatches city country x)
    (hxe : ¬ fieldBlankAt fidx x)
    (hpost : ∀ r ∈ post, ¬ isEmptyMatch city country fidx r) :
    scanRows city country filename hlen fidx (pre ++ x :: post) =
      (pre ++ x :: post, false, some pre.length) := by
  obtain ⟨hb, h0, h1⟩ := hx
  have hxe' : ¬ jsTrim ((parseCsvLine x).getD fidx "") = "" := hxe
  have hpost' := scan_no_empty city country filename hlen fidx post hpost
  induction pre with
  | nil =>
    simp only [List.nil_append, scanRows]
    rw [if_neg hb, if_pos (by rw [padTo_getD, padTo_getD]; exact ⟨h0, h1⟩),
      if_neg (by rw [padTo_getD]; exact hxe')]
    rw [hpost'.1, hpost'.2]
    rfl
  | cons a pre ih =>
    have ha := hpre a (List.mem_cons_self a pre)
    have hrest := ih (fun r hr => hpre r (List.mem_cons_of_mem a hr))
    simp only [List.cons_append, scanRows]
    rw [show pre.append (x :: post) = pre ++ x :: post from rfl]
    by_cases hab : jsTrim a = ""
    · rw [if_pos hab, hrest]
      rfl
    · rw [if_neg hab]
      have ham : ¬ (jsTrim ((padTo hlen (parseCsvLine a)).getD 0 "") = city ∧
          jsTrim ((padTo hlen (parseCsvLine a)).getD 1 "") = country) := by
        rw [padTo_getD, padTo_getD]
        intro hc
        exact ha ⟨hab, hc.1, hc.2⟩
      rw [if_neg ham, hrest]
      rfl

/- Characterisation of the whole update on the line list: the three-way
priority policy (fill first blank match, else overwrite first match, else
append). -/

theorem update_case_empty (city country filename hline : String)
    (pre : List String) (x : String) (post header : List String) (fidx : Nat)
    (hres : resolveHeader hline = (header, fidx))
    (hpre : ∀ r ∈ pre, ¬ isEmptyMatch city country fidx r)
    (hx : isEmptyMatch city country fidx x) :
    updateCsvLines city country filename (hline :: (pre ++ x :: post)) =
      stringifyCsvLine header :: (pre ++ applyFilename filename header.length fidx x :: post) := by
  simp only [updateCsvLines, hres]
  rw [scan_break city country filename header.length fidx pre x post hpre hx]
  rfl

theorem update_case_filled (city country filename hline : String)
    (pre : List String) (x : String) (post header : List String) (fidx : Nat)
    (hres : resolveHeader hline = (header, fidx))
    (hpre : ∀ r ∈ pre, ¬ lineMatches city country r)
    (hx : lineMatches city country x)
    (hxe : ¬ fieldBlankAt fidx x)
    (hpost : ∀ r ∈ post, ¬ isEmptyMatch city country fidx r) :
    updateCsvLines city country filename (hline :: (pre ++ x :: post)) =
      stringifyCsvLine header :: (pre ++ applyFilename filename header.length fidx x :: post) := by
  simp only [updateCsvLines, hres]
  rw [scan_first_filled city country filename header.length fidx pre x post hpre hx hxe hpost]
  show stringifyCsvLine header ::
      ((pre ++ x :: post).set pre.length
        (stringifyCsvLine
          ((padTo header.length (parseCsvLine ((pre ++ x :: post).getD pre.length ""))).set fidx
            filename))) = _
  rw [getD_mid pre x post, set_mid]
  rfl

theorem update_case_append (city country filename hline : String)
    (rows header : List String) (fidx : Nat)
    (hres : resolveHeader hline = (header, fidx))
    (hnm : ∀ r ∈ rows, ¬ lineMatches city country r) :
    updateCsvLines city country filename (hline :: rows) =
      stringifyCsvLine header :: (rows ++ [appendedRow city country filename header.length fidx]) := by
  simp only [updateCsvLines, hres]
  rw [scan_no_match city country filename header.length fidx rows hnm]
  rfl

/- Facts about the resolved header when its first two columns are the city
and country columns. -/

theorem firstIdx_getD (p : α → Bool) (l : List α) (i : Nat) (d : α)
    (h : firstIdx p l = some i) : i < l.length ∧ p (l.getD i d) = true := by
  induction l generalizing i with
  | nil => exact Option.noConfusion h
  | cons a rest ih =>
    simp only [firstIdx] at h
    by_cases ha : p a = true
    · rw [if_pos ha] at h
      cases h
      exact ⟨by simp, ha⟩
    · rw [if_neg ha] at h
      cases hf : firstIdx p rest with
      | none =>
        rw [hf] at h
        exact Option.noConfusion h
      | some j =>
        rw [hf] at h
        have hj : j + 1 = i := by simpa using h
        subst hj
        have := ih j hf
        exact ⟨by simpa using this.1, this.2⟩

theorem header_facts (hline : String) (header : List String) (fidx : Nat)
    (hres : resolveHeader hline = (header, fidx))
    (hcity : normalizeName ((parseCsvLine hline).getD 0 "") = "city")
    (hcountry : normalizeName ((parseCsvLine hline).getD 1 "") = "country") :
    2 ≤ fidx ∧ fidx < header.length := by
  have hlen2 : 2 ≤ (parseCsvLine hline).length := by
    by_contra hlt
    push_neg at hlt
    have : (parseCsvLine hline).getD 1 "" = "" :=
      List.getD_eq_default _ _ (by omega)
    rw [this] at hcountry
    exact absurd hcountry (by decide)
  simp only [resolveHeader] at hres
  cases hfi : firstIdx (fun h => normalizeName h == "filename") (parseCsvLine hline) with
  | some i =>
    simp only [hfi] at hres
    injection hres with h1 h2
    subst h1
    subst h2
    have hspec := firstIdx_getD _ _ i "" hfi
    have hival : normalizeName ((parseCsvLine hline).getD i "") = "filename" := by
      simpa using hspec.2
    have hi0 : i ≠ 0 := by
      intro h0
      rw [h0, hcity] at hival
      exact absurd hival (by decide)
    have hi1 : i ≠ 1 := by
      intro h1
      rw [h1, hcountry] at hival
      exact absurd hival (by decide)
    exact ⟨by omega, hspec.1⟩
  | none =>
    simp only [hfi] at hres
    injection hres with h1 h2
    subst h1
    subst h2
    constructor
    · omega
    · simp only [List.length_append, List.length_cons, List.length_nil]
      omega

theorem set_getD_eq (l : List α) (i : Nat) (v d : α) (h : i < l.length) :
    (l.set i v).getD i d = v := by
  induction l generalizing i with
  | nil => simp at h
  | cons a l ih =>
    cases i with
    | zero => rfl
    | succ j => exact ih j (by simpa using h)

theorem set_getD_ne (l : List α) (i j : Nat) (v d : α) (h : i ≠ j) :
    (l.set i v).getD j d = l.getD j d := by
  induction l generalizing i j with
  | nil => simp [List.set]
  | cons a l ih =>
    cases i with
    | zero =>
      cases j with
      | zero => exact absurd rfl h
      | succ m => rfl
    | succ n =>
      cases j with
      | zero => rfl
      | succ m => exact ih n m (by omega)

theorem padTo_of_le (n : Nat) (fs : List String) (h : n ≤ fs.length) :
    padTo n fs = fs := by
  unfold padTo
  rw [Nat.sub_eq_zero_of_le h]
  simp

/-- C1 counterexample: the claim covers every header containing city and
country columns, but the code matches and writes positionally on the first
two fields.  Under header country,city,filename the row France,Paris has
city Paris and country France in the named columns and a blank filename, so
the claimed policy requires that row to be filled in place; instead the code
finds no positional match, leaves the row blank, and appends the misaligned
row Paris,France,f.jpg (its country column now reads Paris), growing the
table from two lines to three. -/
theorem updateCsv_policy_counterexample :
    updateCsvWithFilename "Paris" "France" "f.jpg" "country,city,filename\nFrance,Paris," =
      "country,city,filename\nFrance,Paris,\nParis,France,f.jpg" ∧
    (splitLines (updateCsvWithFilename "Paris" "France" "f.jpg"
        "country,city,filename\nFrance,Paris,")).getD 1 "" = "France,Paris," ∧
    (splitLines (updateCsvWithFilename "Paris" "France" "f.jpg"
        "country,city,filename\nFrance,Paris,")).length = 3 ∧
    (splitLines "country,city,filename\nFrance,Paris,").length = 2 := by
  refine ⟨by decide, by decide, by decide, by decide⟩

/-- C1 amended: for tables whose city and country columns are the first two
columns — the position the store reads and writes — the update follows the
three-way priority policy: the first matching row with a blank filename
field is filled; otherwise, when every matching row already has a filename,
the first matching row is overwritten; otherwise a new row with the key, an
empty type field and the filename is appended. -/
theorem updateCsv_three_way_policy
    (city country filename hline : String) (rows header : List String) (fidx : Nat)
    (hres : resolveHeader hline = (header, fidx))
    (hcity : normalizeName ((parseCsvLine hline).getD 0 "") = "city")
    (hcountry : normalizeName ((parseCsvLine hline).getD 1 "") = "country") :
    (∀ pre x post, rows = pre ++ x :: post →
      (∀ r ∈ pre, ¬ isEmptyMatch city country fidx r) →
      isEmptyMatch city country fidx x →
      updateCsvLines city country filename (hline :: rows) =
        stringifyCsvLine header :: (pre ++ applyFilename filename header.length fidx x :: post)) ∧
    (∀ pre x post, rows = pre ++ x :: post →
      (∀ r ∈ pre, ¬ lineMatches city country r) →
      lineMatches city country x →
      (∀ r ∈ rows, ¬ isEmptyMatch city country fidx r) →
      updateCsvLines city country filename (hline :: rows) =
        stringifyCsvLine header :: (pre ++ applyFilename filename header.length fidx x :: post)) ∧
    ((∀ r ∈ rows, ¬ lineMatches city country r) →
      updateCsvLines city country filename (hline :: rows) =
        stringifyCsvLine header :: (rows ++ [appendedRow city country filename header.length fidx])) := by
  refine ⟨?_, ?_, ?_⟩
  · rintro pre x post rfl hpre hx
    exact update_case_empty city country filename hline pre x post header fidx hres hpre hx
  · rintro pre x post rfl hpre hx hne
    have hxe : ¬ fieldBlankAt fidx x := fun hbl =>
      hne x (by simp) ⟨hx, hbl⟩
    have hpost : ∀ r ∈ post, ¬ isEmptyMatch city country fidx r := fun r hr =>
      hne r (by simp [hr])
    exact update_case_filled city country filename hline pre x post header fidx hres hpre hx hxe hpost
  · intro h
    exact update_case_append city country filename hline rows header fidx hres h

/-- C1 witness: on a concrete table the first branch of the policy (fill the
blank matching row) produces exactly the expected table. -/
theorem updateCsv_three_way_policy_witness :
    updateCsvLines "Paris" "France" "paris-france-123.jpg"
        ["city,country,filename", "Paris,France,"] =
      ["city,country,filename", "Paris,France,paris-france-123.jpg"] := by
  have h := (updateCsv_three_way_policy "Paris" "France" "paris-france-123.jpg"
      "city,country,filename" ["Paris,France,"] ["city", "country", "filename"] 2
      (by decide) (by decide) (by decide)).1
      [] "Paris,France," [] rfl (by intro r hr; simp at hr) (by decide)
  exact h.trans (by decide)

/-- C6 counterexample: the claim covers every table, but the appended row is
built positionally.  Under header filename,city,country the filename column
is column 0, so the assignment overwrites the city value: updating with key
(Paris, France) appends the row p.jpg,France, — no field of which is Paris —
so the new row does not carry the key. -/
theorem updateCsv_append_key_counterexample :
    updateCsvWithFilename "Paris" "France" "p.jpg" "filename,city,country\nx.jpg,Lyon,France" =
      "filename,city,country\nx.jpg,Lyon,France\np.jpg,France," ∧
    (parseCsvLine "p.jpg,France,").contains "Paris" = false := by
  refine ⟨by decide, by decide⟩

/-- C6 amended: for tables whose city and country columns are the first two
columns, when no row matches the key the update appends exactly one new row
carrying the key and the filename, keeps every pre-existing row unchanged in
its position, and grows the table by exactly one line. -/
theorem updateCsv_append_frame
    (city country filename hline : String) (rows header : List String) (fidx : Nat)
    (hres : resolveHeader hline = (header, fidx))
    (hcity : normalizeName ((parseCsvLine hline).getD 0 "") = "city")
    (hcountry : normalizeName ((parseCsvLine hline).getD 1 "") = "country")
    (hnm : ∀ r ∈ rows, ¬ lineMatches city country r)
    (hc : ',' ∉ city.data) (hk : ',' ∉ country.data) (hf : ',' ∉ filename.data) :
    updateCsvLines city country filename (hline :: rows) =
      stringifyCsvLine header ::
        (rows ++ [appendedRow city country filename header.length fidx]) ∧
    (updateCsvLines city country filename (hline :: rows)).length =
      (hline :: rows).length + 1 ∧
    (parseCsvLine (appendedRow city country filename header.length fidx)).getD 0 "" = city ∧
    (parseCsvLine (appendedRow city country filename header.length fidx)).getD 1 "" = country ∧
    (parseCsvLine (appendedRow city country filename header.length fidx)).getD fidx "" =
      filename := by
  have hft := header_facts hline header fidx hres hcity hcountry
  have main := update_case_append city country filename hline rows header fidx hres hnm
  have hfs : parseCsvLine (appendedRow city country filename header.length fidx) =
      (padTo header.length [city, country, ""]).set fidx filename := by
    unfold appendedRow
    apply parse_stringify
    · intro hnil
      have hlen := congrArg List.length hnil
      rw [List.length_set, padTo_length] at hlen
      simp only [List.length_cons, List.length_nil, List.length_singleton] at hlen
      omega
    · intro f hfm
      rcases List.mem_or_eq_of_mem_set hfm with hfm | rfl
      · unfold padTo at hfm
        rcases List.mem_append.mp hfm with hfm | hfm
        · simp only [List.mem_cons, List.not_mem_nil, or_false] at hfm
          rcases hfm with rfl | rfl | rfl
          · exact hc
          · exact hk
          · intro hx
            exact absurd hx (by decide)
        · have hfe : f = "" := List.eq_of_mem_replicate hfm
          subst hfe
          intro hx
          exact absurd hx (by decide)
      · exact hf
  refine ⟨main, ?_, ?_, ?_, ?_⟩
  · rw [main]
    simp [List.length_append]
  · rw [hfs, set_getD_ne _ _ _ _ _ (by omega), padTo_getD]
    rfl
  · rw [hfs, set_getD_ne _ _ _ _ _ (by omega), padTo_getD]
    rfl
  · rw [hfs]
    apply set_getD_eq
    rw [padTo_length]
    omega

/-- C6 witness: updating a table that has no row for the key appends exactly
the new row and leaves the one existing row in place. -/
theorem updateCsv_append_frame_witness :
    updateCsvLines "Lyon" "France" "lyon-france-7.jpg"
        ["city,country,filename", "Paris,France,x.jpg"] =
      ["city,country,filename", "Paris,France,x.jpg", "Lyon,France,lyon-france-7.jpg"] := by
  have h := (updateCsv_append_frame "Lyon" "France" "lyon-france-7.jpg"
      "city,country,filename" ["Paris,France,x.jpg"] ["city", "country", "filename"] 2
      (by decide) (by decide) (by decide)
      (by intro r hr
          rw [List.mem_singleton.mp hr]
          decide)
      (by decide) (by decide) (by decide)).1
  exact h.trans (by decide)

/-- C4 counterexample: with header city,country (no filename column) and rows
Rome,Italy and Paris,France, updating the Rome row extends the header but the
untouched Paris row is written back with its original two fields, not widened
by an empty third field. -/
theorem updateCsv_widen_counterexample :
    updateCsvWithFilename "Rome" "Italy" "rome-italy-9.jpg"
        "city,country\nRome,Italy\nParis,France" =
      "city,country,filename\nRome,Italy,rome-italy-9.jpg\nParis,France" ∧
    (splitLines (updateCsvWithFilename "Rome" "Italy" "rome-italy-9.jpg"
        "city,country\nRome,Italy\nParis,France")).getD 2 "" = "Paris,France" ∧
    (parseCsvLine "Paris,France").length = 2 ∧
    ((resolveHeader "city,country,filename").1).length = 3 := by
  refine ⟨by decide, by decide, by decide, by decide⟩

/-- C4 amended: when the header lacks a filename column the update does
append filename to the header, and rows are padded in memory while they are
examined, but only the updated or appended row is serialised at the new
width; in the single-row scenario the row is rewritten as expected. -/
theorem updateCsv_header_extension :
    (∀ city country filename hline : String, ∀ rows : List String,
      firstIdx (fun h => normalizeName h == "filename") (parseCsvLine hline) = none →
      ∃ rest, updateCsvLines city country filename (hline :: rows) =
        stringifyCsvLine (parseCsvLine hline ++ ["filename"]) :: rest) ∧
    updateCsvWithFilename "Rome" "Italy" "rome-italy-9.jpg" "city,country\nRome,Italy" =
      "city,country,filename\nRome,Italy,rome-italy-9.jpg" := by
  constructor
  · intro city country filename hline rows hfi
    simp only [updateCsvLines, resolveHeader, hfi]
    exact ⟨_, rfl⟩
  · decide

/-- C4 amended witness: the header-extension branch applied to a concrete
header without a filename column. -/
theorem updateCsv_header_extension_witness :
    ∃ rest, updateCsvLines "Rome" "Italy" "rome-italy-9.jpg" ["city,country", "Rome,Italy"] =
      stringifyCsvLine (parseCsvLine "city,country" ++ ["filename"]) :: rest :=
  updateCsv_header_extension.1 "Rome" "Italy" "rome-italy-9.jpg" "city,country"
    ["Rome,Italy"] (by decide)

/- Helpers for the idempotence analysis: non-blankness of serialised rows,
round-trip stability of the header, and the written row being a fixed point
of a second update. -/

theorem mem_dropWhile_of_mem (p : Char → Bool) (l : List Char) (c : Char)
    (hc : c ∈ l) (hpc : p c = false) : c ∈ l.dropWhile p := by
  have hsplit := List.takeWhile_append_dropWhile (p := p) (l := l)
  rw [← hsplit] at hc
  rcases List.mem_append.mp hc with h | h
  · exact absurd (List.mem_takeWhile_imp h) (by simp [hpc])
  · exact h

theorem trimChars_ne_nil (l : List Char) (c : Char)
    (hc : c ∈ l) (hw : isJsWhitespace c = false) : trimChars l ≠ [] := by
  unfold trimChars
  intro h
  have h1 : c ∈ l.dropWhile isJsWhitespace := mem_dropWhile_of_mem _ _ _ hc hw
  have h2 : c ∈ (l.dropWhile isJsWhitespace).reverse := List.mem_reverse.mpr h1
  have h3 : c ∈ (l.dropWhile isJsWhitespace).reverse.dropWhile isJsWhitespace :=
    mem_dropWhile_of_mem _ _ _ h2 hw
  rw [List.reverse_eq_nil_iff] at h
  rw [h] at h3
  exact List.not_mem_nil c h3

theorem jsTrim_ne_empty (s : String) (c : Char)
    (hc : c ∈ s.data) (hw : isJsWhitespace c = false) : ¬ jsTrim s = "" := by
  intro h
  have hdata : trimChars s.data = [] := by
    have := congrArg String.data h
    simpa [jsTrim] using this
  exact trimChars_ne_nil s.data c hc hw hdata

theorem stringify_contains_comma (fs : List String) (h : 2 ≤ fs.length) :
    ',' ∈ (stringifyCsvLine fs).data := by
  cases fs with
  | nil => simp at h
  | cons x fs2 =>
    cases fs2 with
    | nil => simp at h
    | cons y rest =>
      show ',' ∈ joinWithChar ',' (x.data :: y.data :: rest.map String.data)
      simp only [joinWithChar]
      exact List.mem_append.mpr (Or.inr (List.mem_cons_self _ _))

theorem first_decomp (p : α → Prop) [DecidablePred p] (l : List α) :
    (∀ r ∈ l, ¬ p r) ∨
      ∃ pre x post, l = pre ++ x :: post ∧ (∀ r ∈ pre, ¬ p r) ∧ p x := by
  induction l with
  | nil => exact Or.inl (by simp)
  | cons a rest ih =>
    by_cases ha : p a
    · exact Or.inr ⟨[], a, rest, rfl, by simp, ha⟩
    · rcases ih with h | ⟨pre, x, post, rfl, hpre, hx⟩
      · refine Or.inl ?_
        intro r hr
        rcases List.mem_cons.mp hr with rfl | hr
        · exact ha
        · exact h r hr
      · refine Or.inr ⟨a :: pre, x, post, rfl, ?_, hx⟩
        intro r hr
        rcases List.mem_cons.mp hr with rfl | hr
        · exact ha
        · exact hpre r hr

theorem resolveHeader_stringify (hline : String) (header : List String) (fidx : Nat)
    (hres : resolveHeader hline = (header, fidx)) :
    resolveHeader (stringifyCsvLine header) = (header, fidx) := by
  simp only [resolveHeader] at hres ⊢
  cases hfi : firstIdx (fun h => normalizeName h == "filename") (parseCsvLine hline) with
  | some i =>
    simp only [hfi] at hres
    injection hres with h1 h2
    subst h1
    subst h2
    rw [parse_stringify _ (parseCsvLine_ne_nil hline) (parseCsvLine_no_comma hline), hfi]
  | none =>
    simp only [hfi] at hres
    injection hres with h1 h2
    subst h1
    subst h2
    have hcf : ∀ f ∈ parseCsvLine hline ++ ["filename"], ',' ∉ f.data := by
      intro f hfm
      rcases List.mem_append.mp hfm with hfm | hfm
      · exact parseCsvLine_no_comma hline f hfm
      · rw [List.mem_singleton.mp hfm]
        intro hx
        exact absurd hx (by decide)
    rw [parse_stringify _ (by simp) hcf, firstIdx_append_none _ _ _ hfi]
    have hone : firstIdx (fun h => normalizeName h == "filename") ["filename"] = some 0 := by
      decide
    rw [hone]
    simp

theorem applyFilename_id (filename : String) (hlen fidx : Nat) (fs : List String)
    (hne : fs ≠ []) (hcf : ∀ f ∈ fs, ',' ∉ f.data) (hlenle : hlen ≤ fs.length)
    (hval : fs.getD fidx "" = filename) :
    applyFilename filename hlen fidx (stringifyCsvLine fs) = stringifyCsvLine fs := by
  unfold applyFilename
  rw [parse_stringify fs hne hcf, padTo_of_le _ _ hlenle, ← hval, set_getD_self]

/-- A table whose header is already resolved and whose unique matching row
already carries the filename is a fixed point of the update. -/
theorem update_stable (city country filename : String) (header : List String) (fidx : Nat)
    (pre : List String) (rowj : String) (post : List String) (fs : List String)
    (hres2 : resolveHeader (stringifyCsvLine header) = (header, fidx))
    (hpre : ∀ r ∈ pre, ¬ lineMatches city country r)
    (hpost : ∀ r ∈ post, ¬ lineMatches city country r)
    (hmatch : lineMatches city country rowj)
    (hrow : rowj = stringifyCsvLine fs)
    (hcf : ∀ f ∈ fs, ',' ∉ f.data)
    (hne : fs ≠ [])
    (hlenfs : header.length ≤ fs.length)
    (hval : fs.getD fidx "" = filename) :
    updateCsvLines city country filename (stringifyCsvLine header :: (pre ++ rowj :: post)) =
      stringifyCsvLine header :: (pre ++ rowj :: post) := by
  have happ : applyFilename filename header.length fidx rowj = rowj := by
    rw [hrow]
    exact applyFilename_id filename _ fidx fs hne hcf hlenfs hval
  by_cases hbl : fieldBlankAt fidx rowj
  · have h := update_case_empty city country filename (stringifyCsvLine header)
      pre rowj post header fidx hres2 (fun r hr hem => hpre r hr hem.1) ⟨hmatch, hbl⟩
    rw [h, happ]
  · have h := update_case_filled city country filename (stringifyCsvLine header)
      pre rowj post header fidx hres2 hpre hmatch hbl (fun r hr hem => hpost r hr hem.1)
    rw [h, happ]

/-- The parsed form and the fields of the row appended when no row matches. -/
theorem appendedRow_spec (city country filename : String) (hlen fidx : Nat)
    (hc : ',' ∉ city.data) (hk : ',' ∉ country.data) (hf : ',' ∉ filename.data)
    (h2 : 2 ≤ fidx) (hlt : fidx < hlen) :
    parseCsvLine (appendedRow city country filename hlen fidx) =
      (padTo hlen [city, country, ""]).set fidx filename ∧
    ((padTo hlen [city, country, ""]).set fidx filename).getD 0 "" = city ∧
    ((padTo hlen [city, country, ""]).set fidx filename).getD 1 "" = country ∧
    ((padTo hlen [city, country, ""]).set fidx filename).getD fidx "" = filename ∧
    (∀ f ∈ (padTo hlen [city, country, ""]).set fidx filename, ',' ∉ f.data) ∧
    hlen ≤ ((padTo hlen [city, country, ""]).set fidx filename).length ∧
    (padTo hlen [city, country, ""]).set fidx filename ≠ [] := by
  have hlength : ((padTo hlen [city, country, ""]).set fidx filename).length =
      max 3 hlen := by
    rw [List.length_set, padTo_length]
    rfl
  have hcffs : ∀ f ∈ (padTo hlen [city, country, ""]).set fidx filename, ',' ∉ f.data := by
    intro f hfm
    rcases List.mem_or_eq_of_mem_set hfm with hfm | rfl
    · unfold padTo at hfm
      rcases List.mem_append.mp hfm with hfm | hfm
      · simp only [List.mem_cons, List.not_mem_nil, or_false] at hfm
        rcases hfm with rfl | rfl | rfl
        · exact hc
        · exact hk
        · intro hx
          exact absurd hx (by decide)
      · have hfe : f = "" := List.eq_of_mem_replicate hfm
        subst hfe
        intro hx
        exact absurd hx (by decide)
    · exact hf
  have hnenil : (padTo hlen [city, country, ""]).set fidx filename ≠ [] := by
    intro hnil
    have hl := congrArg List.length hnil
    rw [hlength] at hl
    simp only [List.length_nil] at hl
    rcases Nat.max_eq_zero_iff.mp hl with ⟨h3, _⟩
    exact absurd h3 (by omega)
  refine ⟨?_, ?_, ?_, ?_, hcffs, ?_, hnenil⟩
  · unfold appendedRow
    exact parse_stringify _ hnenil hcffs
  · rw [set_getD_ne _ _ _ _ _ (by omega), padTo_getD]
    rfl
  · rw [set_getD_ne _ _ _ _ _ (by omega), padTo_getD]
    rfl
  · apply set_getD_eq
    rw [padTo_length]
    omega
  · rw [hlength]
    omega

/-- C3 counterexample: with two rows matching the key (the first already
filled, the second blank), the first update fills the second row and the
second update additionally overwrites the first row, so applying the update
twice differs from applying it once. -/
theorem updateCsv_idempotence_counterexample :
    updateCsvWithFilename "Paris" "France" "new.jpg"
        (updateCsvWithFilename "Paris" "France" "new.jpg"
          "city,country,filename\nParis,France,old.jpg\nParis,France,") ≠
      updateCsvWithFilename "Paris" "France" "new.jpg"
        "city,country,filename\nParis,France,old.jpg\nParis,France," := by
  decide

/-- C3 amended: when at most one row of the table matches the (city, country)
key — the identity assumption the specification itself makes — and the key
and filename are trimmed and comma-free, the update is idempotent: a second
identical update leaves the table unchanged. -/
theorem updateCsv_idempotent_of_unique_match
    (city country filename hline : String) (rows header : List String) (fidx : Nat)
    (hres : resolveHeader hline = (header, fidx))
    (hcity : normalizeName ((parseCsvLine hline).getD 0 "") = "city")
    (hcountry : normalizeName ((parseCsvLine hline).getD 1 "") = "country")
    (htc : jsTrim city = city) (htk : jsTrim country = country)
    (hc : ',' ∉ city.data) (hk : ',' ∉ country.data) (hf : ',' ∉ filename.data)
    (huniq : rows.countP (fun r => decide (lineMatches city country r)) ≤ 1) :
    updateCsvLines city country filename
        (updateCsvLines city country filename (hline :: rows)) =
      updateCsvLines city country filename (hline :: rows) := by
  have hft := header_facts hline header fidx hres hcity hcountry
  have hres2 := resolveHeader_stringify hline header fidx hres
  rcases first_decomp (lineMatches city country) rows with hnm | ⟨pre, x, post, rfl, hpre, hx⟩
  · have main := update_case_append city country filename hline rows header fidx hres hnm
    rw [main]
    obtain ⟨hparse, h0, h1, hvfx, hcffs, hlenfs, hnenil⟩ :=
      appendedRow_spec city country filename header.length fidx hc hk hf hft.1 hft.2
    have hmatch : lineMatches city country
        (appendedRow city country filename header.length fidx) := by
      refine ⟨?_, ?_, ?_⟩
      · apply jsTrim_ne_empty _ ',' ?_ (by decide)
        apply stringify_contains_comma
        rw [List.length_set, padTo_length]
        omega
      · rw [hparse, h0]
        exact htc
      · rw [hparse, h1]
        exact htk
    exact update_stable city country filename header fidx rows
      (appendedRow city country filename header.length fidx) [] _ hres2 hnm
      (by simp) hmatch rfl hcffs hnenil hlenfs hvfx
  · have hpost : ∀ r ∈ post, ¬ lineMatches city country r := by
      intro r hr hlm
      have hx' : (fun r => decide (lineMatches city country r)) x = true := by
        simpa using hx
      have hr' : 0 < post.countP (fun r => decide (lineMatches city country r)) :=
        List.countP_pos_iff.mpr ⟨r, hr, by simpa using hlm⟩
      rw [List.countP_append, List.countP_cons, if_pos hx'] at huniq
      omega
    have hout1 : updateCsvLines city country filename (hline :: (pre ++ x :: post)) =
        stringifyCsvLine header ::
          (pre ++ applyFilename filename header.length fidx x :: post) := by
      by_cases hbl : fieldBlankAt fidx x
      · exact update_case_empty city country filename hline pre x post header fidx hres
          (fun r hr hem => hpre r hr hem.1) ⟨hx, hbl⟩
      · exact update_case_filled city country filename hline pre x post header fidx hres
          hpre hx hbl (fun r hr hem => hpost r hr hem.1)
    rw [hout1]
    have hlenfs : header.length ≤
        ((padTo header.length (parseCsvLine x)).set fidx filename).length := by
      rw [List.length_set, padTo_length]
      omega
    have hcffs : ∀ f ∈ (padTo header.length (parseCsvLine x)).set fidx filename,
        ',' ∉ f.data := by
      intro f hfm
      rcases List.mem_or_eq_of_mem_set hfm with hfm | rfl
      · unfold padTo at hfm
        rcases List.mem_append.mp hfm with hfm | hfm
        · exact parseCsvLine_no_comma x f hfm
        · have hfe : f = "" := List.eq_of_mem_replicate hfm
          subst hfe
          intro hxx
          exact absurd hxx (by decide)
      · exact hf
    have hnenil : (padTo header.length (parseCsvLine x)).set fidx filename ≠ [] := by
      intro hnil
      have hl := congrArg List.length hnil
      rw [List.length_set, padTo_length] at hl
      simp only [List.length_nil] at hl
      rcases Nat.max_eq_zero_iff.mp hl with ⟨_, h4⟩
      omega
    have hvfx : ((padTo header.length (parseCsvLine x)).set fidx filename).getD fidx "" =
        filename := by
      apply set_getD_eq
      rw [padTo_length]
      omega
    have hmatch : lineMatches city country (applyFilename filename header.length fidx x) := by
      refine ⟨?_, ?_, ?_⟩
      · apply jsTrim_ne_empty _ ',' ?_ (by decide)
        apply stringify_contains_comma
        rw [List.length_set, padTo_length]
        omega
      · show jsTrim ((parseCsvLine (applyFilename filename header.length fidx x)).getD 0 "") =
          city
        unfold applyFilename
        rw [parse_stringify _ hnenil hcffs, set_getD_ne _ _ _ _ _ (by omega), padTo_getD]
        exact hx.2.1
      · show jsTrim ((parseCsvLine (applyFilename filename header.length fidx x)).getD 1 "") =
          country
        unfold applyFilename
        rw [parse_stringify _ hnenil hcffs, set_getD_ne _ _ _ _ _ (by omega), padTo_getD]
        exact hx.2.2
    exact update_stable city country filename header fidx pre
      (applyFilename filename header.length fidx x) post _ hres2 hpre hpost hmatch rfl
      hcffs hnenil hlenfs hvfx

/-- C3 amended witness: on a table with a single matching row the update is
idempotent. -/
theorem updateCsv_idempotent_witness :
    updateCsvLines "Paris" "France" "p.jpg"
        (updateCsvLines "Paris" "France" "p.jpg" ["city,country,filename", "Paris,France,"]) =
      updateCsvLines "Paris" "France" "p.jpg" ["city,country,filename", "Paris,France,"] :=
  updateCsv_idempotent_of_unique_match "Paris" "France" "p.jpg" "city,country,filename"
    ["Paris,France,"] ["city", "country", "filename"] 2 (by decide) (by decide) (by decide)
    (by decide) (by decide) (by decide) (by decide) (by decide) (by decide)

/- The Result Collector: loadUnique in ImagePicker.tsx.  One search result
is identified by its provider id; the provider is an oracle from page number
to either a fetch failure (none, the thrown Search-failed path) or a list of
hits.  The while loop runs while collected.length < 6 and attempts < 5, so
five units of fuel model the attempt budget exactly. -/

structure Hit where
  id : String
deriving DecidableEq

structure GatherState where
  collected : List Hit
  seen : List String
  page : Nat
  fetches : Nat
deriving DecidableEq

/-- The inner for-loop over one page of hits: a hit whose id is neither in
the seen set nor already in the batch is appended and marked seen; the loop
breaks as soon as the batch reaches 6. -/
def addNovel : List Hit → List Hit → List String → List Hit × List String
  | [], collected, seen => (collected, seen)
  | h :: rest, collected, seen =>
    if !(seen.contains h.id) && !(collected.any fun c => c.id == h.id) then
      let c2 := collected ++ [h]
      let s2 := h.id :: seen
      if 6 ≤ c2.length then (c2, s2) else addNovel rest c2 s2
    else
      addNovel rest collected seen

/-- The while loop of loadUnique: stop when the batch is full or the attempt
budget is spent; fetch one page (a failure aborts the whole gather); process
its hits; advance page and attempts; stop if the page was empty. -/
def gatherLoop (provider : Nat → Option (List Hit)) :
    Nat → GatherState → Bool × GatherState
  | 0, st => (true, st)
  | fuel + 1, st =>
    if 6 ≤ st.collected.length then (true, st)
    else
      match provider st.page with
      | none => (false, { st with fetches := st.fetches + 1 })
      | some hits =>
        let p := addNovel hits st.collected st.seen
        let st2 : GatherState := ⟨p.1, p.2, st.page + 1, st.fetches + 1⟩
        if hits.length = 0 then (true, st2) else gatherLoop provider fuel st2

/-- loadUnique: run the gather from the given page with a copy of the seen
set; on success the batch and the grown seen set are published, on a fetch
error the batch is emptied and the seen set left as it was (the catch
branch sets images to [] and never writes seenIdsRef). -/
def loadUnique (provider : Nat → Option (List Hit)) (pageNum : Nat)
    (seenIds : List String) : List Hit × List String :=
  let r := gatherLoop provider 5 ⟨[], seenIds, pageNum, 0⟩
  if r.1 then (r.2.collected, r.2.seen) else ([], seenIds)

/-- The number of page fetches the gather performs (a failing fetch counts). -/
def loadUniqueFetches (provider : Nat → Option (List Hit)) (pageNum : Nat)
    (seenIds : List String) : Nat :=
  (gatherLoop provider 5 ⟨[], seenIds, pageNum, 0⟩).2.fetches

/-- The sequence of provider responses the gather consumes, in order; none
records the failing fetch that aborts the loop. -/
def gatherTrace (provider : Nat → Option (List Hit)) :
    Nat → GatherState → List (Option (List Hit))
  | 0, _ => []
  | fuel + 1, st =>
    if 6 ≤ st.collected.length then []
    else
      match provider st.page with
      | none => [none]
      | some hits =>
        let p := addNovel hits st.collected st.seen
        let st2 : GatherState := ⟨p.1, p.2, st.page + 1, st.fetches + 1⟩
        some hits :: (if hits.length = 0 then [] else gatherTrace provider fuel st2)

/- Invariants of the inner loop and of the whole gather. -/

/-- The batch invariant: bounded by 6, duplicate-free ids, every batch id
recorded in the seen set, the original seen set preserved, and no batch id
drawn from the original seen set. -/
def BatchInv (seen0 : List String) (collected : List Hit) (seen : List String) : Prop :=
  collected.length ≤ 6 ∧
  (collected.map Hit.id).Nodup ∧
  (∀ h ∈ collected, h.id ∈ seen) ∧
  (∀ x ∈ seen0, x ∈ seen) ∧
  (∀ h ∈ collected, h.id ∉ seen0)

theorem addNovel_inv (seen0 : List String) (hits : List Hit)
    (collected : List Hit) (seen : List String)
    (hlt : collected.length < 6) (hinv : BatchInv seen0 collected seen) :
    BatchInv seen0 (addNovel hits collected seen).1 (addNovel hits collected seen).2 := by
  induction hits generalizing collected seen with
  | nil => exact hinv
  | cons h rest ih =>
    obtain ⟨hlen, hnodup, hsub, hseen0, hfresh⟩ := hinv
    simp only [addNovel]
    by_cases hnov : (!(seen.contains h.id) && !(collected.any fun c => c.id == h.id)) = true
    · rw [if_pos hnov]
      simp only [Bool.and_eq_true, Bool.not_eq_true'] at hnov
      obtain ⟨hns, hnb⟩ := hnov
      have hnotseen : h.id ∉ seen := by
        intro hmem
        have hc : seen.contains h.id = true := (List.elem_iff).mpr hmem
        rw [hc] at hns
        exact Bool.noConfusion hns
      have hnotbatch : ∀ c ∈ collected, ¬ c.id = h.id := by
        intro c hcm
        have := List.any_eq_false.mp hnb c hcm
        simpa using this
      have hinv2 : BatchInv seen0 (collected ++ [h]) (h.id :: seen) := by
        refine ⟨by simp; omega, ?_, ?_, ?_, ?_⟩
        · rw [List.map_append]
          apply List.Nodup.append hnodup (by simp)
          intro a ha hb
          simp only [List.map_cons, List.map_nil, List.mem_singleton] at hb
          subst hb
          rcases List.mem_map.mp ha with ⟨c, hc, hcid⟩
          exact hnotbatch c hc hcid
        · intro g hg
          rcases List.mem_append.mp hg with hg | hg
          · exact List.mem_cons_of_mem _ (hsub g hg)
          · rw [List.mem_singleton.mp hg]
            exact List.mem_cons_self _ _
        · intro x hx
          exact List.mem_cons_of_mem _ (hseen0 x hx)
        · intro g hg
          rcases List.mem_append.mp hg with hg | hg
          · exact hfresh g hg
          · rw [List.mem_singleton.mp hg]
            intro hg0
            exact hnotseen (hseen0 h.id hg0)
      by_cases hfull : 6 ≤ (collected ++ [h]).length
      · rw [if_pos hfull]
        exact hinv2
      · rw [if_neg hfull]
        push_neg at hfull
        exact ih _ _ hfull hinv2
    · rw [if_neg hnov]
      exact ih _ _ hlt ⟨hlen, hnodup, hsub, hseen0, hfresh⟩

theorem gatherLoop_inv (provider : Nat → Option (List Hit)) (seen0 : List String)
    (fuel : Nat) (st : GatherState)
    (hinv : BatchInv seen0 st.collected st.seen) :
    BatchInv seen0 (gatherLoop provider fuel st).2.collected
      (gatherLoop provider fuel st).2.seen := by
  induction fuel generalizing st with
  | zero => exact hinv
  | succ fuel ih =>
    simp only [gatherLoop]
    by_cases hfull : 6 ≤ st.collected.length
    · rw [if_pos hfull]
      exact hinv
    · rw [if_neg hfull]
      push_neg at hfull
      split
      · exact hinv
      · rename_i hits hp
        have hstep := addNovel_inv seen0 hits st.collected st.seen hfull hinv
        by_cases hemp : hits.length = 0
        · rw [if_pos hemp]
          exact hstep
        · rw [if_neg hemp]
          exact ih _ hstep

/-- C2: the batch a gather delivers never contains an id from the seen set
passed in, never contains two results with the same id, and never exceeds
the target count of 6, whatever the provider pages return. -/
theorem loadUnique_batch_sound (provider : Nat → Option (List Hit)) (pageNum : Nat)
    (seenIds : List String) :
    (((loadUnique provider pageNum seenIds).1.filter
        (fun h => seenIds.contains h.id)) = []) ∧
    ((loadUnique provider pageNum seenIds).1.map Hit.id).Nodup ∧
    (loadUnique provider pageNum seenIds).1.length ≤ 6 := by
  have hinv0 : BatchInv seenIds ([] : List Hit) seenIds := by
    refine ⟨by simp, by simp, by simp, fun x hx => hx, by simp⟩
  have hinv := gatherLoop_inv provider seenIds 5 ⟨[], seenIds, pageNum, 0⟩ hinv0
  unfold loadUnique
  by_cases hok : (gatherLoop provider 5 ⟨[], seenIds, pageNum, 0⟩).1 = true
  · rw [if_pos hok]
    obtain ⟨hlen, hnodup, _, _, hfresh⟩ := hinv
    refine ⟨?_, hnodup, hlen⟩
    rw [List.filter_eq_nil_iff]
    intro h hh hcon
    have hc : h.id ∈ seenIds := (List.elem_iff).mp hcon
    exact hfresh h hh hc
  · rw [if_neg hok]
    exact ⟨rfl, by simp, by simp⟩

/-- C2 closed instance: a provider offering plenty of results still yields a
batch that passes all three checks (exercised though the theorem itself has
no hypotheses). -/
theorem loadUnique_batch_sound_witness :
    ((loadUnique (fun _ => some [⟨"a"⟩, ⟨"b"⟩, ⟨"c"⟩, ⟨"d"⟩, ⟨"e"⟩, ⟨"f"⟩, ⟨"g"⟩, ⟨"h"⟩]) 1
        ["a"]).1.filter (fun h => (["a"] : List String).contains h.id) = []) ∧
    ((loadUnique (fun _ => some [⟨"a"⟩, ⟨"b"⟩, ⟨"c"⟩, ⟨"d"⟩, ⟨"e"⟩, ⟨"f"⟩, ⟨"g"⟩, ⟨"h"⟩]) 1
        ["a"]).1.map Hit.id).Nodup ∧
    (loadUnique (fun _ => some [⟨"a"⟩, ⟨"b"⟩, ⟨"c"⟩, ⟨"d"⟩, ⟨"e"⟩, ⟨"f"⟩, ⟨"g"⟩, ⟨"h"⟩]) 1
        ["a"]).1.length ≤ 6 :=
  loadUnique_batch_sound (fun _ => some [⟨"a"⟩, ⟨"b"⟩, ⟨"c"⟩, ⟨"d"⟩, ⟨"e"⟩, ⟨"f"⟩, ⟨"g"⟩, ⟨"h"⟩])
    1 ["a"]

/- Fetch counting and termination of the gather. -/

theorem gatherLoop_fetches_le (provider : Nat → Option (List Hit)) (fuel : Nat)
    (st : GatherState) :
    (gatherLoop provider fuel st).2.fetches ≤ st.fetches + fuel := by
  induction fuel generalizing st with
  | zero => simp [gatherLoop]
  | succ fuel ih =>
    simp only [gatherLoop]
    by_cases hfull : 6 ≤ st.collected.length
    · rw [if_pos hfull]
      show st.fetches ≤ st.fetches + (fuel + 1)
      omega
    · rw [if_neg hfull]
      split
      · show st.fetches + 1 ≤ st.fetches + (fuel + 1)
        omega
      · rename_i hits hp
        by_cases hemp : hits.length = 0
        · rw [if_pos hemp]
          show st.fetches + 1 ≤ st.fetches + (fuel + 1)
          omega
        · rw [if_neg hemp]
          have hrec := ih (⟨(addNovel hits st.collected st.seen).1,
            (addNovel hits st.collected st.seen).2, st.page + 1, st.fetches + 1⟩ : GatherState)
          have hfe : (⟨(addNovel hits st.collected st.seen).1,
              (addNovel hits st.collected st.seen).2, st.page + 1,
              st.fetches + 1⟩ : GatherState).fetches = st.fetches + 1 := rfl
          rw [hfe] at hrec
          omega

theorem gatherLoop_empty_page_stops (provider : Nat → Option (List Hit)) (fuel : Nat)
    (st : GatherState) (hlt : st.collected.length < 6)
    (hp : provider st.page = some []) :
    gatherLoop provider (fuel + 1) st =
      (true, ⟨st.collected, st.seen, st.page + 1, st.fetches + 1⟩) := by
  simp only [gatherLoop]
  rw [if_neg (by omega), hp]
  rfl

/-- The provider of the termination scenario: page 1 returns 18 results that
were all seen before, page 2 returns no results, later pages would have
results again. -/
def scenarioSeen : List String :=
  ["s1", "s2", "s3", "s4", "s5", "s6", "s7", "s8", "s9",
   "s10", "s11", "s12", "s13", "s14", "s15", "s16", "s17", "s18"]

def scenarioProvider (page : Nat) : Option (List Hit) :=
  if page = 1 then some (scenarioSeen.map Hit.mk)
  else if page = 2 then some []
  else some [⟨"fresh"⟩]

/-- C5: a gather performs at most 5 page fetches whatever the provider
returns; a page with zero raw results stops the loop right after that fetch;
and in the concrete scenario (18 already-seen results on page 1, an empty
page 2) the collector stops after the second fetch with an empty batch
instead of using the remaining attempt budget. -/
theorem loadUnique_bounded_attempts :
    (∀ (provider : Nat → Option (List Hit)) (pageNum : Nat) (seenIds : List String),
      loadUniqueFetches provider pageNum seenIds ≤ 5) ∧
    (∀ (provider : Nat → Option (List Hit)) (fuel : Nat) (st : GatherState),
      st.collected.length < 6 → provider st.page = some [] →
      gatherLoop provider (fuel + 1) st =
        (true, ⟨st.collected, st.seen, st.page + 1, st.fetches + 1⟩)) ∧
    loadUniqueFetches scenarioProvider 1 scenarioSeen = 2 ∧
    (loadUnique scenarioProvider 1 scenarioSeen).1 = [] := by
  refine ⟨?_, gatherLoop_empty_page_stops, ?_, ?_⟩
  · intro provider pageNum seenIds
    have := gatherLoop_fetches_le provider 5 ⟨[], seenIds, pageNum, 0⟩
    simpa [loadUniqueFetches] using this
  · decide
  · decide

/-- C5 witness: the early-stop conjunct applied to a concrete state and
provider with both hypotheses discharged, plus the two closed conjuncts. -/
theorem loadUnique_bounded_attempts_witness :
    gatherLoop (fun _ => some []) (4 + 1) ⟨[], ["x"], 3, 0⟩ =
      (true, ⟨[], ["x"], 3 + 1, 0 + 1⟩) ∧
    loadUniqueFetches (fun _ => some []) 3 ["x"] ≤ 5 :=
  ⟨loadUnique_bounded_attempts.2.1 (fun _ => some []) 4 ⟨[], ["x"], 3, 0⟩
      (by decide) (by decide),
   loadUnique_bounded_attempts.1 (fun _ => some []) 3 ["x"]⟩

/- Error behaviour of the gather: a failing fetch aborts the whole attempt. -/

theorem gatherTrace_error_iff (provider : Nat → Option (List Hit)) (fuel : Nat)
    (st : GatherState) :
    none ∈ gatherTrace provider fuel st ↔ (gatherLoop provider fuel st).1 = false := by
  induction fuel generalizing st with
  | zero => simp [gatherTrace, gatherLoop]
  | succ fuel ih =>
    simp only [gatherTrace, gatherLoop]
    by_cases hfull : 6 ≤ st.collected.length
    · rw [if_pos hfull, if_pos hfull]
      simp
    · rw [if_neg hfull, if_neg hfull]
      cases hp : provider st.page with
      | none => simp [hp]
      | some hits =>
        simp only [hp]
        by_cases hemp : hits.length = 0
        · rw [if_pos hemp, if_pos hemp]
          simp
        · rw [if_neg hemp, if_neg hemp]
          simpa using ih _

/-- C7: when some page fetch of the gather fails (the trace records a failed
response), the whole attempt is aborted: the delivered batch is empty and the
stored seen set is exactly the one passed in, so a later gather can simply
run again. -/
theorem loadUnique_fetch_error_empty (provider : Nat → Option (List Hit))
    (pageNum : Nat) (seenIds : List String)
    (herr : none ∈ gatherTrace provider 5 ⟨[], seenIds, pageNum, 0⟩) :
    loadUnique provider pageNum seenIds = ([], seenIds) := by
  have hfalse := (gatherTrace_error_iff provider 5 ⟨[], seenIds, pageNum, 0⟩).mp herr
  unfold loadUnique
  rw [if_neg (by rw [hfalse]; exact Bool.noConfusion)]

/-- C7 witness: a provider whose very first fetch fails delivers an empty
batch and an unchanged seen set. -/
theorem loadUnique_fetch_error_empty_witness :
    loadUnique (fun _ => none) 1 ["kept"] = ([], ["kept"]) :=
  loadUnique_fetch_error_empty (fun _ => none) 1 ["kept"] (by decide)

/- The slug, the url extension helper and the server action
downloadImageAndUpdateCsv of src/unnamed/part_001.  The host Unicode
operations toLowerCase and normalize(NFKD) are host primitives; they are passed as
parameters, and URL parsing is passed as the parsed pathname (none models a
URL constructor that throws). -/

/-- The ASCII letters and digits. -/
def isAsciiAlnum (c : Char) : Bool :=
  ('a' ≤ c && c ≤ 'z') || ('A' ≤ c && c ≤ 'Z') || ('0' ≤ c && c ≤ '9')

/-- The regex class \w (no unicode flag): ASCII letters, digits, underscore. -/
def isAsciiWordChar (c : Char) : Bool := isAsciiAlnum c || c == '_'

/-- A character replaced by a hyphen in the final slug step, the regex class
[\s_]. -/
def isCollapsible (c : Char) : Bool := isJsWhitespace c || c == '_'

/-- The replace of every [\s_]+ run by one hyphen; the flag records whether
the previous character belonged to a run. -/
def collapseRuns : Bool → List Char → List Char
  | _, [] => []
  | inRun, c :: rest =>
    if isCollapsible c then
      if inRun then collapseRuns true rest else '-' :: collapseRuns true rest
    else
      c :: collapseRuns false rest

/-- toSlug from the source: lower-case, NFKD-normalise, drop everything but
word characters, whitespace and hyphens, trim, then collapse whitespace and
underscore runs to single hyphens. -/
def toSlug (lower norm : String → String) (input : String) : String :=
  String.mk (collapseRuns false (trimChars
    ((norm (lower input)).data.filter
      (fun c => isAsciiWordChar c || isJsWhitespace c || c == '-'))))

/-- The replace(/[^a-zA-Z0-9_-]/g, '') sanitising the provider image id. -/
def safeIdOf (s : String) : String :=
  String.mk (s.data.filter fun c => isAsciiAlnum c || c == '_' || c == '-')

/-- getFileExtensionFromUrl from the source, over the parsed pathname: take
the last path segment, strip a query suffix, and return the lower-cased text
after its last dot, defaulting to jpg when parsing failed or there is no
dot. -/
def getFileExtensionFromUrl (parsedPathname : Option String) : String :=
  match parsedPathname with
  | none => "jpg"
  | some pathname =>
    let lastSegment := (splitOnChar '/' pathname.data).getLastD []
    let clean := (splitOnChar '?' lastSegment).headD []
    let parts := splitOnChar '.' clean
    if 1 < parts.length then String.mk ((parts.getLastD []).map jsToLowerChar)
    else "jpg"

/-- The cleaned last path segment used by the extension helper. -/
def cleanSegmentOf (s : String) : List Char :=
  (splitOnChar '?' ((splitOnChar '/' s.data).getLastD [])).headD []

inductive ActionStatus
  | idle
  | success
  | error
deriving DecidableEq

structure ActionState where
  status : ActionStatus
  message : Option String
  filename : Option String
deriving DecidableEq

/-- The full observable outcome of one server-action call: the returned
state, the csv text after the call, and whether the image fetch and the file
write happened. -/
structure ActionResult where
  state : ActionState
  csv : String
  fetched : Bool
  fileWritten : Bool
deriving DecidableEq

/-- downloadImageAndUpdateCsv from the source: trim the form fields, reject
when one is empty, sanitise the image id, build the base name from the two
slugs and the id, download (the fetch outcome is the fetchOk oracle), then
update the csv.  The fetched and fileWritten flags record the side effects
performed. -/
def downloadImageAndUpdateCsv (lower norm : String → String)
    (pathnameOf : Option String) (fetchOk : Bool) (csv : String)
    (city0 country0 imageUrl0 imageId0 : String) : ActionResult :=
  let city := jsTrim city0
  let country := jsTrim country0
  let imageUrl := jsTrim imageUrl0
  let imageIdRaw := jsTrim imageId0
  if city = "" ∨ country = "" ∨ imageUrl = "" ∨ imageIdRaw = "" then
    ⟨⟨.error, some "Missing required fields", none⟩, csv, false, false⟩
  else
    let safeId := safeIdOf imageIdRaw
    if safeId = "" then
      ⟨⟨.error, some "Invalid image id", none⟩, csv, false, false⟩
    else
      let baseName := toSlug lower norm city ++ "-" ++ toSlug lower norm country ++ "-" ++ safeId
      let ext := getFileExtensionFromUrl pathnameOf
      let filename := baseName ++ "." ++ ext
      if fetchOk then
        ⟨⟨.success, some "Downloaded and CSV updated", some filename⟩,
          updateCsvWithFilename city country filename csv, true, true⟩
      else
        ⟨⟨.error, some "Failed to download image", none⟩, csv, true, false⟩

/-- C8: a persist request with an empty city, country, image url or image id
after trimming is rejected with an error before any network or file
side effect: nothing is fetched, nothing is written, the csv text is exactly
the one read. -/
theorem downloadAction_validation (lower norm : String → String)
    (pathnameOf : Option String) (fetchOk : Bool) (csv : String)
    (city0 country0 imageUrl0 imageId0 : String)
    (hempty : jsTrim city0 = "" ∨ jsTrim country0 = "" ∨
      jsTrim imageUrl0 = "" ∨ jsTrim imageId0 = "") :
    downloadImageAndUpdateCsv lower norm pathnameOf fetchOk csv
        city0 country0 imageUrl0 imageId0 =
      ⟨⟨.error, some "Missing required fields", none⟩, csv, false, false⟩ := by
  unfold downloadImageAndUpdateCsv
  rw [if_pos hempty]

/-- C8 witness: an all-whitespace city is rejected with no side effects. -/
theorem downloadAction_validation_witness :
    downloadImageAndUpdateCsv id id (some "/a.jpg") true "city,country" "  " "France" "u" "9" =
      ⟨⟨.error, some "Missing required fields", none⟩, "city,country", false, false⟩ :=
  downloadAction_validation id id (some "/a.jpg") true "city,country" "  " "France" "u" "9"
    (Or.inl (by decide))

/- Character-set facts about the slug. -/

theorem collapseRuns_chars (l : List Char) : ∀ b : Bool, ∀ c ∈ collapseRuns b l,
    c = '-' ∨ (c ∈ l ∧ isCollapsible c = false) := by
  induction l with
  | nil =>
    intro b c hc
    simp [collapseRuns] at hc
  | cons a rest ih =>
    intro b c hc
    simp only [collapseRuns] at hc
    by_cases hcol : isCollapsible a = true
    · rw [if_pos hcol] at hc
      cases b with
      | true =>
        rw [if_pos rfl] at hc
        rcases ih true c hc with h | ⟨hm, hnc⟩
        · exact Or.inl h
        · exact Or.inr ⟨List.mem_cons_of_mem a hm, hnc⟩
      | false =>
        rw [if_neg (by decide)] at hc
        rcases List.mem_cons.mp hc with rfl | hc
        · exact Or.inl rfl
        · rcases ih true c hc with h | ⟨hm, hnc⟩
          · exact Or.inl h
          · exact Or.inr ⟨List.mem_cons_of_mem a hm, hnc⟩
    · rw [if_neg hcol] at hc
      rcases List.mem_cons.mp hc with rfl | hc
      · exact Or.inr ⟨List.mem_cons_self _ _, by simpa using hcol⟩
      · rcases ih false c hc with h | ⟨hm, hnc⟩
        · exact Or.inl h
        · exact Or.inr ⟨List.mem_cons_of_mem a hm, hnc⟩

theorem trimChars_subset (l : List Char) : ∀ c ∈ trimChars l, c ∈ l := by
  intro c hc
  unfold trimChars at hc
  have h1 : c ∈ (l.dropWhile isJsWhitespace).reverse.dropWhile isJsWhitespace :=
    List.mem_reverse.mp hc
  have h2 : c ∈ (l.dropWhile isJsWhitespace).reverse :=
    (List.dropWhile_sublist _).subset h1
  have h3 : c ∈ l.dropWhile isJsWhitespace := List.mem_reverse.mp h2
  exact (List.dropWhile_sublist _).subset h3

theorem toSlug_chars (lower norm : String → String) (input : String) :
    ∀ c ∈ (toSlug lower norm input).data,
      (isAsciiAlnum c = true ∨ c = '-') ∧ isJsWhitespace c = false := by
  intro c hc
  rcases collapseRuns_chars _ false c hc with rfl | ⟨hm, hnc⟩
  · exact ⟨Or.inr rfl, by decide⟩
  · have hmem := trimChars_subset _ c hm
    have hkeep := (List.mem_filter.mp hmem).2
    have hncws : isJsWhitespace c = false ∧ (c == '_') = false := by
      simpa [isCollapsible] using hnc
    refine ⟨?_, hncws.1⟩
    simp only [Bool.or_eq_true] at hkeep
    rcases hkeep with (hw | hws) | hh
    · simp only [isAsciiWordChar, Bool.or_eq_true] at hw
      rcases hw with hw | hw
      · exact Or.inl hw
      · rw [hw] at hncws
        exact absurd hncws.2 (by decide)
    · rw [hws] at hncws
      exact absurd hncws.1 (by decide)
    · right
      simpa using hh

theorem data_append (a b : String) : (a ++ b).data = a.data ++ b.data := by
  cases a
  cases b
  rfl

/-- C9: slug generation is deterministic; the slug-of-city, hyphen,
slug-of-country string contains only ASCII letters, digits and hyphens
(hence no whitespace and no other punctuation); and a pick that passes
validation is persisted under the filename
slug(city)-slug(country)-sanitisedId.extension. -/
theorem toSlug_deterministic_and_clean :
    (∀ (lower norm : String → String) (x y : String), x = y →
      toSlug lower norm x = toSlug lower norm y) ∧
    (∀ (lower norm : String → String) (city country : String),
      ∀ c ∈ (toSlug lower norm city ++ "-" ++ toSlug lower norm country).data,
        (isAsciiAlnum c = true ∨ c = '-') ∧ isJsWhitespace c = false) ∧
    (∀ (lower norm : String → String) (pathnameOf : Option String) (csv : String)
        (city0 country0 imageUrl0 imageId0 : String),
      ¬ jsTrim city0 = "" → ¬ jsTrim country0 = "" → ¬ jsTrim imageUrl0 = "" →
      ¬ jsTrim imageId0 = "" → ¬ safeIdOf (jsTrim imageId0) = "" →
      (downloadImageAndUpdateCsv lower norm pathnameOf true csv
          city0 country0 imageUrl0 imageId0).state.filename =
        some (toSlug lower norm (jsTrim city0) ++ "-" ++ toSlug lower norm (jsTrim country0) ++
          "-" ++ safeIdOf (jsTrim imageId0) ++ "." ++ getFileExtensionFromUrl pathnameOf)) := by
  refine ⟨fun lower norm x y h => by rw [h], ?_, ?_⟩
  · intro lower norm city country c hc
    rw [data_append, data_append] at hc
    rcases List.mem_append.mp hc with hc | hc
    · rcases List.mem_append.mp hc with hc | hc
      · exact toSlug_chars lower norm city c hc
      · rcases List.mem_singleton.mp hc with rfl
        exact ⟨Or.inr rfl, by decide⟩
    · exact toSlug_chars lower norm country c hc
  · intro lower norm pathnameOf csv city0 country0 imageUrl0 imageId0 h1 h2 h3 h4 h5
    unfold downloadImageAndUpdateCsv
    rw [if_neg (by push_neg; exact ⟨h1, h2, h3, h4⟩), if_neg h5, if_pos rfl]

/-- C9 witness: concrete slugs joined with a hyphen contain only the allowed
characters, and the persisted filename has the documented shape. -/
theorem toSlug_deterministic_and_clean_witness :
    (∀ c ∈ (toSlug id id "Sao  Paulo" ++ "-" ++ toSlug id id "Brazil").data,
      (isAsciiAlnum c = true ∨ c = '-') ∧ isJsWhitespace c = false) ∧
    (downloadImageAndUpdateCsv id id (some "/photo.JPG") true "city,country"
        "Sao  Paulo" "Brazil" "https://x/photo.JPG" "id9").state.filename =
      some (toSlug id id (jsTrim "Sao  Paulo") ++ "-" ++ toSlug id id (jsTrim "Brazil") ++
        "-" ++ safeIdOf (jsTrim "id9") ++ "." ++ getFileExtensionFromUrl (some "/photo.JPG")) :=
  ⟨toSlug_deterministic_and_clean.2.1 id id "Sao  Paulo" "Brazil",
   toSlug_deterministic_and_clean.2.2 id id (some "/photo.JPG") "city,country"
     "Sao  Paulo" "Brazil" "https://x/photo.JPG" "id9"
     (by decide) (by decide) (by decide) (by decide) (by decide)⟩

/- The extension helper: totality, defaults, lower-casing, and the one gap
in the specification (a last segment ending in a dot yields an empty
extension). -/

theorem char_toNat_ofNat (n : Nat) (h : n < 55296) : (Char.ofNat n).toNat = n := by
  unfold Char.ofNat
  rw [dif_pos (Or.inl h)]
  show (⟨⟨⟨n, by omega⟩⟩, Or.inl h⟩ : Char).toNat = n
  rfl

theorem jsToLowerChar_not_upper (d : Char) :
    ¬ ('A' ≤ jsToLowerChar d ∧ jsToLowerChar d ≤ 'Z') := by
  unfold jsToLowerChar
  by_cases hup : ('A' ≤ d && d ≤ 'Z') = true
  · rw [if_pos hup]
    simp only [Bool.and_eq_true, decide_eq_true_eq] at hup
    have h65 : (65 : Nat) ≤ d.toNat := hup.1
    have h90 : d.toNat ≤ 90 := hup.2
    have hv : (Char.ofNat (d.toNat + 32)).toNat = d.toNat + 32 :=
      char_toNat_ofNat _ (by omega)
    intro hcon
    have c1 : (65 : Nat) ≤ (Char.ofNat (d.toNat + 32)).toNat := hcon.1
    have c2 : (Char.ofNat (d.toNat + 32)).toNat ≤ 90 := hcon.2
    rw [hv] at c1 c2
    omega
  · rw [if_neg hup]
    intro hcon
    apply hup
    simp only [Bool.and_eq_true, decide_eq_true_eq]
    exact hcon

theorem splitOnChar_length_gt_one (sep : Char) (l : List Char) (h : sep ∈ l) :
    1 < (splitOnChar sep l).length := by
  induction l with
  | nil => simp at h
  | cons c rest ih =>
    simp only [splitOnChar]
    by_cases hc : c = sep
    · rw [if_pos hc]
      have hpos : 0 < (splitOnChar sep rest).length :=
        List.length_pos.mpr (splitOnChar_ne_nil sep rest)
      simp only [List.length_cons]
      omega
    · rw [if_neg hc]
      have hrest : sep ∈ rest := by
        rcases List.mem_cons.mp h with rfl | hm
        · exact absurd rfl hc
        · exact hm
      have hlen := ih hrest
      cases hsp : splitOnChar sep rest with
      | nil => exact absurd hsp (splitOnChar_ne_nil sep rest)
      | cons a as =>
        rw [hsp] at hlen
        simp only [List.length_cons] at hlen ⊢
        simp only [List.tail_cons, List.length_cons]
        omega

theorem splitOnChar_last_ne_nil (sep : Char) :
    ∀ l : List Char, l ≠ [] → l.getLast? ≠ some sep →
      (splitOnChar sep l).getLastD [] ≠ [] := by
  intro l
  induction l with
  | nil => intro h; exact absurd rfl h
  | cons c rest ih =>
    intro _ hlast
    cases rest with
    | nil =>
      have hc : c ≠ sep := fun hh => hlast (by simp [hh])
      simp [splitOnChar, hc]
    | cons c2 rest2 =>
      have hlast2 : (c2 :: rest2).getLast? ≠ some sep := by
        rwa [List.getLast?_cons_cons] at hlast
      have ihr := ih (by simp) hlast2
      have unf : splitOnChar sep (c :: c2 :: rest2) =
          if c = sep then [] :: splitOnChar sep (c2 :: rest2)
          else (c :: (splitOnChar sep (c2 :: rest2)).headD []) ::
            (splitOnChar sep (c2 :: rest2)).tail := rfl
      rw [unf]
      by_cases hc : c = sep
      · rw [if_pos hc]
        cases hsp : splitOnChar sep (c2 :: rest2) with
        | nil => exact absurd hsp (splitOnChar_ne_nil sep _)
        | cons a as =>
          rw [hsp] at ihr
          rw [List.getLastD_cons]
          exact ihr
      · rw [if_neg hc]
        cases hsp : splitOnChar sep (c2 :: rest2) with
        | nil => exact absurd hsp (splitOnChar_ne_nil sep _)
        | cons a as =>
          rw [hsp] at ihr
          rw [show (a :: as).headD [] = a from rfl, show (a :: as).tail = as from rfl]
          cases as with
          | nil => simp
          | cons a2 as2 =>
            rw [List.getLastD_cons, List.getLastD_cons]
            rw [List.getLastD_cons, List.getLastD_cons] at ihr
            exact ihr

/-- C10 counterexample: the pathname of the well-formed URL
https://example.com/photo. ends in a dot, and the extension extracted from
it is the empty string, not a non-empty extension. -/
theorem getFileExtension_counterexample :
    getFileExtensionFromUrl (some "/photo.") = "" := by
  decide

/-- C10 amended: extension extraction is total; it returns jpg when the URL
does not parse or the cleaned last segment has no dot; its result never
contains an ASCII upper-case letter; it is non-empty whenever the cleaned
last segment does not end in a dot (with a trailing dot it is empty); and
every written file's name is base-dot-extension for that extension. -/
theorem getFileExtension_spec :
    getFileExtensionFromUrl none = "jpg" ∧
    (∀ s : String, '.' ∉ cleanSegmentOf s → getFileExtensionFromUrl (some s) = "jpg") ∧
    (∀ p : Option String, ∀ c ∈ (getFileExtensionFromUrl p).data,
      ¬ ('A' ≤ c ∧ c ≤ 'Z')) ∧
    (∀ s : String, (cleanSegmentOf s).getLast? ≠ some '.' →
      ¬ getFileExtensionFromUrl (some s) = "") ∧
    (∀ (lower norm : String → String) (pathnameOf : Option String)
        (csv a b c d : String),
      (downloadImageAndUpdateCsv lower norm pathnameOf true csv a b c d).fileWritten = true →
      ∃ base, (downloadImageAndUpdateCsv lower norm pathnameOf true csv a b c d).state.filename =
        some (base ++ "." ++ getFileExtensionFromUrl pathnameOf)) := by
  have hclean : ∀ s : String,
      (splitOnChar '?' ((splitOnChar '/' s.data).getLastD [])).headD [] = cleanSegmentOf s :=
    fun s => rfl
  have hnodot : ∀ s : String, '.' ∉ cleanSegmentOf s →
      getFileExtensionFromUrl (some s) = "jpg" := by
    intro s hnd
    simp only [getFileExtensionFromUrl, hclean s]
    rw [splitOnChar_of_no_sep '.' _ hnd]
    rfl
  refine ⟨rfl, hnodot, ?_, ?_, ?_⟩
  · intro p c hc
    cases p with
    | none =>
      have hjd : ("jpg" : String).data = ['j', 'p', 'g'] := rfl
      have hms : c = 'j' ∨ c = 'p' ∨ c = 'g' := by
        have hc2 : c ∈ ("jpg" : String).data := hc
        rw [hjd] at hc2
        simpa using hc2
      rcases hms with rfl | rfl | rfl <;> decide
    | some s =>
      by_cases hdot : '.' ∈ cleanSegmentOf s
      · have hgt := splitOnChar_length_gt_one '.' (cleanSegmentOf s) hdot
        have heq : getFileExtensionFromUrl (some s) =
            String.mk (((splitOnChar '.' (cleanSegmentOf s)).getLastD []).map jsToLowerChar) := by
          simp only [getFileExtensionFromUrl, hclean s]
          rw [if_pos hgt]
        rw [heq] at hc
        rcases List.mem_map.mp hc with ⟨d, _, rfl⟩
        exact jsToLowerChar_not_upper d
      · rw [hnodot s hdot] at hc
        have hjd : ("jpg" : String).data = ['j', 'p', 'g'] := rfl
        have hms : c = 'j' ∨ c = 'p' ∨ c = 'g' := by
          rw [hjd] at hc
          simpa using hc
        rcases hms with rfl | rfl | rfl <;> decide
  · intro s hlastc
    by_cases hdot : '.' ∈ cleanSegmentOf s
    · have hgt := splitOnChar_length_gt_one '.' (cleanSegmentOf s) hdot
      have heq : getFileExtensionFromUrl (some s) =
          String.mk (((splitOnChar '.' (cleanSegmentOf s)).getLastD []).map jsToLowerChar) := by
        simp only [getFileExtensionFromUrl, hclean s]
        rw [if_pos hgt]
      rw [heq]
      intro hempty
      have hdata : ((splitOnChar '.' (cleanSegmentOf s)).getLastD []).map jsToLowerChar = [] := by
        have := congrArg String.data hempty
        simpa using this
      have hnil := List.map_eq_nil.mp hdata
      exact splitOnChar_last_ne_nil '.' (cleanSegmentOf s)
        (List.ne_nil_of_mem hdot) hlastc hnil
    · rw [hnodot s hdot]
      decide
  · intro lower norm pathnameOf csv a b c d hfw
    unfold downloadImageAndUpdateCsv at hfw ⊢
    by_cases hval : jsTrim a = "" ∨ jsTrim b = "" ∨ jsTrim c = "" ∨ jsTrim d = ""
    · rw [if_pos hval] at hfw
      exact Bool.noConfusion hfw
    · rw [if_neg hval] at hfw ⊢
      by_cases hsid : safeIdOf (jsTrim d) = ""
      · rw [if_pos hsid] at hfw
        exact Bool.noConfusion hfw
      · rw [if_neg hsid] at hfw ⊢
        rw [if_pos rfl]
        exact ⟨_, rfl⟩

/-- C10 amended witness: the no-dot default, the lower-casing and the
non-emptiness conjuncts at concrete pathnames, and the filename shape of a
concrete successful persist. -/
theorem getFileExtension_spec_witness :
    getFileExtensionFromUrl (some "/img/photo") = "jpg" ∧
    ¬ getFileExtensionFromUrl (some "/img/photo.JPG") = "" ∧
    (∃ base,
      (downloadImageAndUpdateCsv id id (some "/img/photo.JPG") true "city,country"
          "Rome" "Italy" "u" "9").state.filename =
        some (base ++ "." ++ getFileExtensionFromUrl (some "/img/photo.JPG"))) :=
  ⟨getFileExtension_spec.2.1 "/img/photo" (by decide),
   getFileExtension_spec.2.2.2.1 "/img/photo.JPG" (by decide),
   getFileExtension_spec.2.2.2.2 id id (some "/img/photo.JPG") "city,country"
     "Rome" "Italy" "u" "9" (by decide)⟩

end TravelImageGenerator
